import Mathlib

/-!
Verification of the error-registry subsystem of the metaboss repository.

The development shallowly embeds the two source files under scrutiny:

* `src/utils.rs` — `convert_to_wtf_error` (the enum-source parser and
  registry compiler), `generate_phf_map_var`, and `find_errors`
  (the multi-domain lookup);
* `src/find.rs` — the pure core of `find_missing_editions`.

Text is modelled as `List Char` (Rust byte indices coincide with character
indices on the ASCII data these functions manipulate).  Each Rust helper is
translated into an executable Lean function of the same shape; fallible Rust
code returns an explicit result type, and the reachable `unwrap` panic in the
enum-name derivation is modelled as a dedicated `panicked` outcome.
-/

namespace Metaboss

set_option maxRecDepth 100000

/-! ## Character-list primitives mirroring the Rust `str` operations -/

/-- Model of `str::starts_with(char)`. -/
def startsWithChar (t : Char) : List Char → Bool
  | [] => false
  | c :: _ => c == t

/-- Model of `str::ends_with(char)`. -/
def endsWithChar (t : Char) (l : List Char) : Bool :=
  startsWithChar t l.reverse

/-- Character-list prefix test (`str::starts_with(&str)`). -/
def isPrefixOfC : List Char → List Char → Bool
  | [], _ => true
  | _ :: _, [] => false
  | p :: ps, c :: cs => p == c && isPrefixOfC ps cs

/-- Character-list suffix test (`str::ends_with(&str)`). -/
def isSuffixOfC (p l : List Char) : Bool :=
  isPrefixOfC p.reverse l.reverse

/-- Model of `str::contains(&str)` (substring containment). -/
def containsSub (pat : List Char) : List Char → Bool
  | [] => isPrefixOfC pat []
  | c :: cs => isPrefixOfC pat (c :: cs) || containsSub pat cs

/-- Model of `str::find(&str)`: index of the first occurrence of `pat`. -/
def firstIdxOfSub (pat : List Char) : List Char → Option Nat
  | [] => if isPrefixOfC pat [] then some 0 else none
  | c :: cs =>
    if isPrefixOfC pat (c :: cs) then some 0
    else (firstIdxOfSub pat cs).map (· + 1)

/-- Model of `str::find(char)`: index of the first occurrence of `t`. -/
def findIdxChar (t : Char) : List Char → Option Nat
  | [] => none
  | c :: cs => if c == t then some 0 else (findIdxChar t cs).map (· + 1)

/-- Model of `str::get(n..)`: `some` iff `n` is within bounds. -/
def dropGet? (n : Nat) (l : List Char) : Option (List Char) :=
  if n ≤ l.length then some (l.drop n) else none

/-- Model of `str::get(..n)`: `some` iff `n` is within bounds. -/
def takeGet? (n : Nat) (l : List Char) : Option (List Char) :=
  if n ≤ l.length then some (l.take n) else none

/-- Model of `str::trim` (whitespace stripped from both ends). -/
def trimChars (l : List Char) : List Char :=
  ((l.dropWhile Char.isWhitespace).reverse.dropWhile Char.isWhitespace).reverse

/-- Model of `str::split(char)` (keeps empty fragments, result nonempty). -/
def splitOnChar (sep : Char) : List Char → List (List Char)
  | [] => [[]]
  | c :: cs =>
    let r := splitOnChar sep cs
    if c == sep then [] :: r
    else
      match r with
      | [] => [[c]]
      | h :: t => (c :: h) :: t

/-- Strip one trailing carriage return, as `str::lines` does per line. -/
def stripTrailingCR (l : List Char) : List Char :=
  if l.getLast? = some '\r' then l.dropLast else l

/-- Model of `str::lines`: split on newline, no trailing empty line. -/
def splitLines (l : List Char) : List (List Char) :=
  if l = [] then []
  else
    let parts := splitOnChar '\n' l
    let parts := if l.getLast? = some '\n' then parts.dropLast else parts
    parts.map stripTrailingCR

/-- Fuel-indexed scanner behind `removeAll` (structural recursion so that the
kernel can evaluate it; the fuel is an upper bound on the scanned length and
is never exhausted when it starts at the list length). -/
def removeAllFuel (c0 : Char) (rest : List Char) : Nat → List Char → List Char
  | 0, l => l
  | _ + 1, [] => []
  | fuel + 1, c :: cs =>
    if isPrefixOfC (c0 :: rest) (c :: cs) then removeAllFuel c0 rest fuel (cs.drop rest.length)
    else c :: removeAllFuel c0 rest fuel cs

/-- Model of `str::replace(pat, "")` with the nonempty pattern `c0 :: rest`:
remove every non-overlapping leftmost occurrence of the pattern. -/
def removeAll (c0 : Char) (rest : List Char) (l : List Char) : List Char :=
  removeAllFuel c0 rest l.length l

/-- Model of `char::to_ascii_uppercase` on a whole string. -/
def toUpperChars (l : List Char) : List Char :=
  l.map Char.toUpper

/-! ## Integer parsing (`str::parse::<i64>`) and hexadecimal rendering -/

/-- Decimal digit accumulator for `parseDigits`. -/
def parseDigitsAux (acc : Nat) : List Char → Option Nat
  | [] => some acc
  | c :: cs => if c.isDigit then parseDigitsAux (acc * 10 + (c.toNat - 48)) cs else none

/-- Parse a nonempty all-digit string as a natural number. -/
def parseDigits : List Char → Option Nat
  | [] => none
  | l => parseDigitsAux 0 l

/-- Largest `i64` value. -/
def i64Max : Nat := 2 ^ 63 - 1

/-- Model of `str::parse::<i64>`: optional sign, decimal digits,
64-bit signed range check. -/
def parseI64 (l : List Char) : Option Int :=
  match l with
  | '+' :: ds => (parseDigits ds).bind (fun n => if n ≤ i64Max then some (n : Int) else none)
  | '-' :: ds => (parseDigits ds).bind (fun n => if n ≤ 2 ^ 63 then some (-(n : Int)) else none)
  | ds => (parseDigits ds).bind (fun n => if n ≤ i64Max then some (n : Int) else none)

/-- The sixteen uppercase hexadecimal digits. -/
def hexDigitsList : List Char := "0123456789ABCDEF".data

/-- Uppercase hexadecimal digit of a value below 16. -/
def hexDigit (n : Nat) : Char :=
  hexDigitsList.getD n '0'

/-- Fuel-indexed digit expansion behind `natHex` (structural recursion so the
kernel can evaluate it; the fuel bounds the value and is never exhausted when
it starts at the value itself). -/
def natHexAux : Nat → Nat → List Char
  | 0, n => [hexDigit n]
  | fuel + 1, n =>
    if n < 16 then [hexDigit n] else natHexAux fuel (n / 16) ++ [hexDigit (n % 16)]

/-- Uppercase hexadecimal rendering of a natural number, no leading zeros. -/
def natHex (n : Nat) : List Char :=
  natHexAux n n

/-- Model of Rust `format!("{:X}")` on an `i64`: non-negative values render
directly, negative values render their 64-bit two's-complement bit pattern. -/
def rustHexX (n : Int) : List Char :=
  if 0 ≤ n then natHex n.toNat else natHex (2 ^ 64 - (-n).toNat)

/-! ## The enum-source parser (`convert_to_wtf_error`, `src/utils.rs:154`) -/

/-- Failure values of `convert_to_wtf_error` (the four `anyhow!` messages:
only the first three are reachable, as proved below). -/
inductive WErr where
  | enumNotFound
  | malformedEnum
  | cannotParse
  | invalidOverride
deriving DecidableEq

/-- Which branch of the loop body pushed an output fragment. -/
inductive EmitSrc where
  | variantLine (ov : Option Int)
  | attrLine
  | strayLine
deriving DecidableEq

/-- One fragment pushed onto `error_contents`, with the value of
`starting_error_number` at the moment of the push (ghost data: the Rust code
only keeps the concatenation of the `rendered` fields). -/
structure Entry where
  code : Int
  src : EmitSrc
  rendered : List Char
deriving DecidableEq

/-- Override value of an emitted entry, when its variant line had `=`. -/
def entryOverride? (e : Entry) : Option Int :=
  match e.src with
  | .variantLine ov => ov
  | _ => none

/-- Whether an entry was emitted by the variant-line branch. -/
def isVariantEntry (e : Entry) : Bool :=
  match e.src with
  | .variantLine _ => true
  | _ => false

/-- Opening brace character (code 123). -/
def lbrace : Char := Char.ofNat 123

/-- Closing brace character (code 125). -/
def rbrace : Char := Char.ofNat 125

/-- Apostrophe character (code 39). -/
def apos : Char := Char.ofNat 39

/-- Initial value of `parsed_error_line`: the string `"\",\n"`. -/
def defaultBuffer : List Char := "\x22,\n".data

/-- The substring the loop uses to decide that an entry is complete. -/
def emitArrow : List Char := "=>".data

/-- Condition for the variant-line branch of the loop
(`!starts_with("#[") && !starts_with('"') && !ends_with('"') && !ends_with(")]")`). -/
def variantCond (line : List Char) : Bool :=
  !isPrefixOfC "#[".data line && !startsWithChar '\x22' line
    && !endsWithChar '\x22' line && !isSuffixOfC ")]".data line

/-- Condition for the attribute-line branch
(`starts_with("#[") && ends_with(")]")`). -/
def attrCond (line : List Char) : Bool :=
  isPrefixOfC "#[".data line && isSuffixOfC ")]".data line

/-- Message extraction of the attribute branch: the chain
`.replace("#[","").replace("error(\"","").replace("msg(\"","").replace("\")]","")`. -/
def extractMsg (line : List Char) : List Char :=
  removeAll '\x22' ")]".data
    (removeAll 'm' "sg(\x22".data
      (removeAll 'e' "rror(\x22".data
        (removeAll '#' "[".data line)))

/-- Buffer written by the variant branch:
`format!("    \"{starting_error_number:X}\" => \"{error_enum}{parsed_error_line}")`. -/
def variantRender (n : Int) (sym old : List Char) : List Char :=
  "    \x22".data ++ rustHexX n ++ "\x22 => \x22".data ++ sym ++ old

/-- Buffer written by the attribute branch: `format!(": {parsed_message}\",\n")`. -/
def attrRender (msg : List Char) : List Char :=
  ": ".data ++ msg ++ "\x22,\n".data

/-- Result of processing one line of the enum body. -/
inductive StepRes where
  | halt
  | fail (e : WErr)
  | cont (b : List Char) (cnt : Int)
  | emit (e : Entry) (cnt : Int)
deriving DecidableEq

/-- The shared tail of the loop body: push the buffer and advance the counter
when the buffer contains `"=>"`, keep accumulating otherwise. -/
def finishStep (meta : EmitSrc) (b : List Char) (c : Int) : StepRes :=
  if containsSub emitArrow b then .emit ⟨c, meta, b⟩ (c + 1) else .cont b c

/-- One iteration of the `for error_line in error_lines` loop. -/
def lineStep (buffer : List Char) (counter : Int) (raw : List Char) : StepRes :=
  let line := trimChars raw
  if startsWithChar rbrace line then .halt
  else if startsWithChar '/' line || line.isEmpty then .cont buffer counter
  else if variantCond line then
    match findIdxChar ',' line with
    | none => .fail .malformedEnum
    | some idx =>
      match takeGet? idx line with
      | none => .fail .cannotParse
      | some preComma =>
        if preComma.contains '=' then
          let combo := splitOnChar '=' preComma
          match parseI64 (trimChars (combo.getD 1 [])) with
          | none => .fail .invalidOverride
          | some n =>
            finishStep (.variantLine (some n))
              (variantRender n (trimChars (combo.getD 0 [])) buffer) n
        else finishStep (.variantLine none) (variantRender counter preComma buffer) counter
  else if attrCond line then
    finishStep .attrLine (attrRender (extractMsg line)) counter
  else
    finishStep .strayLine buffer counter

/-- The whole line loop: returns the pushed fragments (ghost-tagged) and the
error, if any. -/
def runLines (buffer : List Char) (counter : Int) : List (List Char) → List Entry × Option WErr
  | [] => ([], none)
  | raw :: ls =>
    match lineStep buffer counter raw with
    | .halt => ([], none)
    | .fail e => ([], some e)
    | .cont b c => runLines b c ls
    | .emit e c =>
      let r := runLines defaultBuffer c ls
      (e :: r.1, r.2)

/-- Model of `generate_phf_map_var` (`src/utils.rs:150`). -/
def generate_phf_map_var (var_name : List Char) : List Char :=
  "pub static ".data ++ var_name ++ ": phf::Map<&".data ++ [apos]
    ++ "static str, &".data ++ [apos] ++ "static str> = phf_map! \x7b\n".data

/-- The cleaned file name split into space-separated words
(`file_name.replace(".rs", "").replace('-', " ").split(' ')`). -/
def fileWords (file_name : List Char) : List (List Char) :=
  splitOnChar ' '
    ((removeAll '.' "rs".data file_name).map (fun ch => if ch == '-' then ' ' else ch))

/-- The derived table identifier (`file_name_capitalized`). -/
def fileCap (file_name : List Char) : List Char :=
  List.intercalate "_".data ((fileWords file_name).map toUpperChars)

/-- The base-framework marker test (`file_name.contains("anchor")`). -/
def isAnchorFile (file_name : List Char) : Bool :=
  containsSub "anchor".data file_name

/-- The starting code (`starting_error_number`, `src/utils.rs:168`). -/
def startingErrorNumber (file_name file_contents : List Char) : Int :=
  match isAnchorFile file_name with
  | true => 100
  | false =>
    match containsSub "#[msg".data file_contents with
    | true => 6000
    | false => 0

/-- Capitalization of one word; `none` models the Rust panic of
`s.get(0..1).unwrap()` on an empty word. -/
def capitalizeWord : List Char → Option (List Char)
  | [] => none
  | c :: cs => some (Char.toUpper c :: cs)

/-- Capitalize every word, propagating the panic. -/
def capWords : List (List Char) → Option (List (List Char))
  | [] => some []
  | w :: ws =>
    match capitalizeWord w, capWords ws with
    | some cw, some cws => some (cw :: cws)
    | _, _ => none

/-- The enum name the parser searches for; `none` models the panic. -/
def enumNameOf? (file_name : List Char) : Option (List Char) :=
  if isAnchorFile file_name then some "ErrorCode".data
  else if fileCap file_name = "CANDY_CORE_ERROR".data then some "CandyError".data
  else (capWords (fileWords file_name)).map List.flatten

/-- Possible outcomes of `convert_to_wtf_error`: panic, `anyhow!` error, or
the rendered mapping text. -/
inductive WtfResult where
  | panicked
  | err (e : WErr)
  | ok (s : List Char)
deriving DecidableEq

/-- Model of `convert_to_wtf_error` (`src/utils.rs:154`), paired with the
ghost list of pushed fragments. -/
def convert_result (file_name file_contents : List Char) : WtfResult × List Entry :=
  match enumNameOf? file_name with
  | none => (.panicked, [])
  | some enum_name =>
    match firstIdxOfSub enum_name file_contents with
    | none => (.err .enumNotFound, [])
    | some error_index =>
      match dropGet? (error_index + enum_name.length + 2) file_contents with
      | none => (.err .malformedEnum, [])
      | some rest =>
        let trimmed_content := trimChars rest
        if trimmed_content.contains rbrace then
          let r := runLines defaultBuffer (startingErrorNumber file_name file_contents)
            (splitLines trimmed_content)
          match r.2 with
          | some e => (.err e, r.1)
          | none =>
            (.ok (generate_phf_map_var (fileCap file_name)
              ++ (r.1.map Entry.rendered).flatten ++ "\x7d;\n\n".data), r.1)
        else (.err .malformedEnum, [])

/-- Model of `convert_to_wtf_error`: result only. -/
def convert_to_wtf_error (file_name file_contents : List Char) : WtfResult :=
  (convert_result file_name file_contents).1

/-- Ghost view: the fragments pushed by a run of `convert_to_wtf_error`. -/
def convert_entries (file_name file_contents : List Char) : List Entry :=
  (convert_result file_name file_contents).2

/-! ## The multi-domain lookup (`find_errors`, `src/utils.rs:265`) -/

/-- Result row of a lookup (struct `FoundError` of `crate::data`; its two
string fields are visible from its construction sites in `src/utils.rs`). -/
structure FoundError where
  domain : List Char
  message : List Char
deriving DecidableEq

/-- The seven compiled domain tables.  The tables themselves live in the
generated `wtf_errors.rs` (not under `src/`), so they are abstracted as
key-to-value maps; `find_errors` is verified for every choice of tables. -/
structure ErrTables where
  anchorTable : List Char → Option (List Char)
  metadataTable : List Char → Option (List Char)
  auctionHouseTable : List Char → Option (List Char)
  auctioneerTable : List Char → Option (List Char)
  candyTable : List Char → Option (List Char)
  candyCoreTable : List Char → Option (List Char)
  candyGuardTable : List Char → Option (List Char)

/-- Model of `find_errors` (`src/utils.rs:265`): uppercase the code, probe the
seven tables in the fixed declaration order, collect one row per hit. -/
def find_errors (t : ErrTables) (hex_code : List Char) : List FoundError :=
  let h := toUpperChars hex_code
  (match t.anchorTable h with
    | some e => [⟨"Anchor Program".data, e⟩]
    | none => [])
  ++ (match t.metadataTable h with
    | some e => [⟨"Token Metadata".data, e⟩]
    | none => [])
  ++ (match t.auctionHouseTable h with
    | some e => [⟨"Auction House".data, e⟩]
    | none => [])
  ++ (match t.auctioneerTable h with
    | some e => [⟨"Auctioneer".data, e⟩]
    | none => [])
  ++ (match t.candyTable h with
    | some e => [⟨"Candy Machine".data, e⟩]
    | none => [])
  ++ (match t.candyCoreTable h with
    | some e => [⟨"Candy Core".data, e⟩]
    | none => [])
  ++ (match t.candyGuardTable h with
    | some e => [⟨"Candy Guard".data, e⟩]
    | none => [])

/-- The catalog in declaration order, as (domain name, table) pairs. -/
def catalogOf (t : ErrTables) : List (List Char × (List Char → Option (List Char))) :=
  [("Anchor Program".data, t.anchorTable),
   ("Token Metadata".data, t.metadataTable),
   ("Auction House".data, t.auctionHouseTable),
   ("Auctioneer".data, t.auctioneerTable),
   ("Candy Machine".data, t.candyTable),
   ("Candy Core".data, t.candyCoreTable),
   ("Candy Guard".data, t.candyGuardTable)]

/-- Declarative restatement of the lookup used to state its correctness. -/
def lookupSpec (t : ErrTables) (code : List Char) : List FoundError :=
  (catalogOf t).filterMap
    (fun d => (d.2 (toUpperChars code)).map (fun m => ⟨d.1, m⟩))

/-! ## The missing-edition computation (`find_missing_editions`, `src/find.rs:15`) -/

/-- Ascending comparison used to model `sort_unstable`. -/
def natLE (a b : Nat) : Bool := a ≤ b

/-- Pure core of `find_missing_editions`: sort the decoded edition numbers,
then collect every value from 1 to the largest that is not present. -/
def find_missing_editions (edition_nums : List Nat) : List Nat :=
  let sorted := edition_nums.mergeSort natLE
  let largest := sorted.getLast?.getD 0
  (List.range' 1 largest).filter (fun i => !sorted.contains i)

/-- Largest element of a list of naturals (0 for the empty list). -/
def listMax (l : List Nat) : Nat := l.foldr max 0

/-! ## Specification-side characterizations

The following definitions restate, in the words of the specification, what
the parser is claimed to do; the theorems below relate them to the embedded
code. -/

/-- Whether one body line, taken on its own, makes the loop fail, and how:
a variant-shaped line with no comma is malformed, a variant-shaped line whose
override does not parse as an `i64` is an invalid override.  The failure does
not depend on the loop state. -/
def lineError? (raw : List Char) : Option WErr :=
  let line := trimChars raw
  if startsWithChar '/' line || line.isEmpty then none
  else if variantCond line then
    match findIdxChar ',' line with
    | none => some .malformedEnum
    | some idx =>
      let preComma := line.take idx
      if preComma.contains '=' then
        match parseI64 (trimChars ((splitOnChar '=' preComma).getD 1 [])) with
        | none => some .invalidOverride
        | some _ => none
      else none
  else none

/-- First failure of the body lines in scan order, stopping at the first line
that starts with the closing brace. -/
def firstLineError : List (List Char) → Option WErr
  | [] => none
  | raw :: ls =>
    if startsWithChar rbrace (trimChars raw) then none
    else
      match lineError? raw with
      | some e => some e
      | none => firstLineError ls

/-- A body line that neither terminates the loop nor touches the pending
buffer or the counter: a comment or blank line (skipped by `continue`), or a
line caught by neither the variant branch nor the attribute branch (for an
arrow-free buffer the trailing emit check then does nothing). -/
def lineNeutral (raw : List Char) : Bool :=
  let line := trimChars raw
  !startsWithChar rbrace line
    && ((startsWithChar '/' line || line.isEmpty)
        || (!variantCond line && !attrCond line))

/-- The condition under which the Rust enum-name derivation panics: the file
is neither anchor-marked nor the candy-core identifier, and the space-split
cleaned file name contains an empty word. -/
def panicCond (file_name : List Char) : Bool :=
  !isAnchorFile file_name && !(fileCap file_name == "CANDY_CORE_ERROR".data)
    && (fileWords file_name).any List.isEmpty

/-- Expected outcome of a parse: `none` means a panic, `some (some e)` the
error `e`, `some none` a normal result. -/
def expectedOutcome (file_name file_contents : List Char) : Option (Option WErr) :=
  if panicCond file_name then none
  else
    some (match enumNameOf? file_name with
      | none => some WErr.enumNotFound
      | some nm =>
        match firstIdxOfSub nm file_contents with
        | none => some WErr.enumNotFound
        | some i =>
          match dropGet? (i + nm.length + 2) file_contents with
          | none => some WErr.malformedEnum
          | some rest =>
            let t := trimChars rest
            if t.contains rbrace then firstLineError (splitLines t)
            else some WErr.malformedEnum)

/-- The auto-increment discipline of the emitted fragments: starting from
counter value `c`, each fragment without an explicit override carries the
current counter value, an override carries its own value, and each fragment
advances the counter by one. -/
def chainFrom (c : Int) : List Entry → Bool
  | [] => true
  | e :: es =>
    (match entryOverride? e with
      | none => e.code == c
      | some n => e.code == n) && chainFrom (e.code + 1) es

/-- Numeric value of an uppercase hexadecimal digit. -/
def hexDigVal (ch : Char) : Nat :=
  if ch.toNat ≤ 57 then ch.toNat - 48 else ch.toNat - 55

/-- Numeric value of an uppercase hexadecimal string. -/
def hexVal (l : List Char) : Nat :=
  l.foldl (fun a ch => a * 16 + hexDigVal ch) 0

/-- Uppercase hexadecimal digit test. -/
def isUpperHexDigit (ch : Char) : Bool :=
  ('0' ≤ ch && ch ≤ '9') || ('A' ≤ ch && ch ≤ 'F')

/-! ## Concrete inputs used in the scenario theorems -/

/-- Anchor-style file name for the concrete rendering scenario. -/
def anchorTestName : List Char := "anchor.rs".data

/-- Anchor-style enum source for the concrete rendering scenario. -/
def anchorTestSource : List Char :=
  "ErrorCode \x7b\n    #[error(\x22Account not initialized\x22)]\n    NotInitialized,\n    #[error(\x22Invalid owner\x22)]\n    InvalidOwner,\n\x7d\n".data

/-- Plain metadata-style file name used in several scenarios. -/
def metaTestName : List Char := "meta.rs".data

/-- A one-entry catalog environment used to witness the lookup theorem. -/
def testTables : ErrTables :=
  ⟨fun k => if k = "1A".data then some "anchor message".data else none,
   fun _ => none, fun _ => none, fun _ => none, fun _ => none, fun _ => none, fun _ => none⟩

/-! ## Basic lemmas about the string primitives -/

theorem containsSub_of_isPrefixOfC {pat l : List Char} (h : isPrefixOfC pat l = true) :
    containsSub pat l = true := by
  cases l with
  | nil => simpa [containsSub] using h
  | cons c cs => simp [containsSub, h]

theorem isPrefixOfC_nil_true {pat : List Char} (h : isPrefixOfC pat [] = true) :
    pat = [] := by
  cases pat with
  | nil => rfl
  | cons p ps => simp [isPrefixOfC] at h

theorem containsSub_cons_of {pat l : List Char} (c : Char) (h : containsSub pat l = true) :
    containsSub pat (c :: l) = true := by
  cases l with
  | nil =>
    have hp : pat = [] := isPrefixOfC_nil_true (by simpa [containsSub] using h)
    subst hp; simp [containsSub, isPrefixOfC]
  | cons d ds =>
    show (isPrefixOfC pat (c :: d :: ds) || containsSub pat (d :: ds)) = true
    simp [h]

theorem containsSub_append_right {pat l2 : List Char} (l1 : List Char)
    (h : containsSub pat l2 = true) : containsSub pat (l1 ++ l2) = true := by
  induction l1 with
  | nil => simpa using h
  | cons c cs ih => exact containsSub_cons_of c ih

/-- The variant branch always writes a buffer containing `"=>"`, hence always
emits immediately. -/
theorem variantRender_contains_arrow (n : Int) (sym old : List Char) :
    containsSub emitArrow (variantRender n sym old) = true := by
  unfold variantRender
  simp only [List.append_assoc]
  apply containsSub_append_right
  apply containsSub_append_right
  show containsSub emitArrow ('\x22' :: ' ' :: '=' :: '>' :: ' ' :: '\x22' :: (sym ++ old)) = true
  apply containsSub_cons_of
  apply containsSub_cons_of
  apply containsSub_of_isPrefixOfC
  simp [emitArrow, isPrefixOfC]

theorem findIdxChar_lt {t : Char} {l : List Char} {i : Nat} (h : findIdxChar t l = some i) :
    i < l.length := by
  induction l generalizing i with
  | nil => simp [findIdxChar] at h
  | cons c cs ih =>
    by_cases hc : (c == t) = true
    · simp [findIdxChar, hc] at h
      simp only [List.length_cons]
      omega
    · simp [findIdxChar, hc] at h
      obtain ⟨j, hj, rfl⟩ := h
      have := ih hj
      simp only [List.length_cons]
      omega

/-! ## Step lemmas for the line loop -/

theorem finishStep_ne_halt (m : EmitSrc) (b : List Char) (c : Int) :
    finishStep m b c ≠ .halt := by
  unfold finishStep; split <;> simp

theorem finishStep_ne_fail (m : EmitSrc) (b : List Char) (c : Int) (e : WErr) :
    finishStep m b c ≠ .fail e := by
  unfold finishStep; split <;> simp

theorem finishStep_emit {m : EmitSrc} {b : List Char} {c : Int} {en : Entry} {c2 : Int}
    (h : finishStep m b c = .emit en c2) : en = ⟨c, m, b⟩ ∧ c2 = c + 1 := by
  unfold finishStep at h
  split at h
  · exact ⟨(StepRes.emit.injEq _ _ _ _).mp h |>.1.symm, (StepRes.emit.injEq _ _ _ _).mp h |>.2.symm⟩
  · simp at h

theorem finishStep_cont {m : EmitSrc} {b : List Char} {c : Int} {b2 : List Char} {c2 : Int}
    (h : finishStep m b c = .cont b2 c2) : b2 = b ∧ c2 = c := by
  unfold finishStep at h
  split at h
  · simp at h
  · exact ⟨(StepRes.cont.injEq _ _ _ _).mp h |>.1.symm, (StepRes.cont.injEq _ _ _ _).mp h |>.2.symm⟩

theorem finishStep_shape (m : EmitSrc) (b : List Char) (c : Int) :
    (∃ en c2, finishStep m b c = .emit en c2) ∨ ∃ b2 c2, finishStep m b c = .cont b2 c2 := by
  unfold finishStep; split
  · exact Or.inl ⟨_, _, rfl⟩
  · exact Or.inr ⟨_, _, rfl⟩

theorem lineStep_halt_of {raw : List Char} (b : List Char) (c : Int)
    (h : startsWithChar rbrace (trimChars raw) = true) : lineStep b c raw = .halt := by
  simp [lineStep, h]

/-- Away from the brace line, the failure of one loop iteration is exactly
`lineError?` of the line — in particular it does not depend on the buffer or
on the counter — and a non-failing iteration either continues with the same
counter or emits. -/
theorem lineStep_spec (b : List Char) (c : Int) (raw : List Char)
    (hbr : startsWithChar rbrace (trimChars raw) = false) :
    (∃ e, lineError? raw = some e ∧ lineStep b c raw = .fail e)
    ∨ (lineError? raw = none ∧
        ((∃ b2, lineStep b c raw = .cont b2 c) ∨ ∃ en c2, lineStep b c raw = .emit en c2)) := by
  by_cases h1 : (startsWithChar '/' (trimChars raw) || (trimChars raw).isEmpty) = true
  · exact Or.inr ⟨by simp [lineError?, h1], Or.inl ⟨b, by simp [lineStep, hbr, h1]⟩⟩
  · by_cases h2 : variantCond (trimChars raw) = true
    · cases hidx : findIdxChar ',' (trimChars raw) with
      | none =>
        refine Or.inl ⟨.malformedEnum, by simp [lineError?, h1, h2, hidx], ?_⟩
        simp [lineStep, hbr, h1, h2, hidx]
      | some idx =>
        have htake : takeGet? idx (trimChars raw) = some ((trimChars raw).take idx) := by
          unfold takeGet?
          rw [if_pos (Nat.le_of_lt (findIdxChar_lt hidx))]
        by_cases h3 : ((trimChars raw).take idx).contains '=' = true
        · have hm : '=' ∈ (trimChars raw).take idx := by simpa using h3
          cases hp : parseI64 (trimChars ((splitOnChar '=' ((trimChars raw).take idx)).getD 1 [])) with
          | none =>
            have hp2 : parseI64 (trimChars
                ((splitOnChar '=' ((trimChars raw).take idx))[1]?.getD [])) = none := by
              rw [← List.getD_eq_getElem?_getD]; exact hp
            refine Or.inl ⟨.invalidOverride, by simp [lineError?, h1, h2, hidx, hm, hp, hp2], ?_⟩
            simp [lineStep, hbr, h1, h2, hidx, htake, hm, hp, hp2]
          | some n =>
            have hp2 : parseI64 (trimChars
                ((splitOnChar '=' ((trimChars raw).take idx))[1]?.getD [])) = some n := by
              rw [← List.getD_eq_getElem?_getD]; exact hp
            refine Or.inr ⟨by simp [lineError?, h1, h2, hidx, hm, hp, hp2], Or.inr ?_⟩
            have hst : lineStep b c raw = finishStep (.variantLine (some n))
                (variantRender n (trimChars ((splitOnChar '='
                  ((trimChars raw).take idx)).getD 0 [])) b) n := by
              simp [lineStep, hbr, h1, h2, hidx, htake, hm, hp, hp2]
            rw [hst]
            unfold finishStep
            rw [if_pos (variantRender_contains_arrow _ _ _)]
            exact ⟨_, _, rfl⟩
        · have hm : ¬ ('=' ∈ (trimChars raw).take idx) := by simpa using h3
          refine Or.inr ⟨by simp [lineError?, h1, h2, hidx, hm], Or.inr ?_⟩
          have hst : lineStep b c raw
              = finishStep (.variantLine none) (variantRender c ((trimChars raw).take idx) b) c := by
            simp [lineStep, hbr, h1, h2, hidx, htake, hm]
          rw [hst]
          unfold finishStep
          rw [if_pos (variantRender_contains_arrow _ _ _)]
          exact ⟨_, _, rfl⟩
    · refine Or.inr ⟨by simp [lineError?, h1, h2], ?_⟩
      by_cases h4 : attrCond (trimChars raw) = true
      · have hst : lineStep b c raw = finishStep .attrLine (attrRender (extractMsg (trimChars raw))) c := by
          simp [lineStep, hbr, h1, h2, h4]
        rcases finishStep_shape .attrLine (attrRender (extractMsg (trimChars raw))) c with
          ⟨en, c2, he⟩ | ⟨b2, c2, hc⟩
        · exact Or.inr ⟨en, c2, by rw [hst, he]⟩
        · exact Or.inl ⟨b2, by rw [hst, hc, (finishStep_cont hc).2]⟩
      · have hst : lineStep b c raw = finishStep .strayLine b c := by
          simp [lineStep, hbr, h1, h2, h4]
        rcases finishStep_shape .strayLine b c with ⟨en, c2, he⟩ | ⟨b2, c2, hc⟩
        · exact Or.inr ⟨en, c2, by rw [hst, he]⟩
        · exact Or.inl ⟨b2, by rw [hst, hc, (finishStep_cont hc).2]⟩

/-- An iteration that continues without emitting never changes the counter
(the would-be counter change of the override branch always emits, because a
variant buffer always contains `"=>"`). -/
theorem lineStep_cont_spec {b : List Char} {c : Int} {raw : List Char} {b2 : List Char} {c2 : Int}
    (h : lineStep b c raw = .cont b2 c2) : c2 = c := by
  simp only [lineStep] at h
  split at h
  · exact absurd h (by simp)
  · split at h
    · exact ((StepRes.cont.injEq _ _ _ _).mp h).2.symm ▸ rfl
    · split at h
      · split at h
        · exact absurd h (by simp)
        · split at h
          · exact absurd h (by simp)
          · split at h
            · split at h
              · exact absurd h (by simp)
              · rw [finishStep, if_pos (variantRender_contains_arrow _ _ _)] at h
                exact absurd h (by simp)
            · rw [finishStep, if_pos (variantRender_contains_arrow _ _ _)] at h
              exact absurd h (by simp)
      · split at h
        · exact (finishStep_cont h).2
        · exact (finishStep_cont h).2

/-- What an emitted entry looks like: the next counter is one past its code,
its code is the counter (or its override value), and variant entries render
with the hexadecimal key of their own code. -/
theorem lineStep_emit_spec {b : List Char} {c : Int} {raw : List Char} {en : Entry} {c2 : Int}
    (h : lineStep b c raw = .emit en c2) :
    c2 = en.code + 1
    ∧ (entryOverride? en = none → en.code = c)
    ∧ (∀ n, entryOverride? en = some n → en.code = n)
    ∧ (isVariantEntry en = true → ∃ sym, en.rendered = variantRender en.code sym b) := by
  simp only [lineStep] at h
  split at h
  · exact absurd h (by simp)
  · split at h
    · exact absurd h (by simp)
    · split at h
      · split at h
        · exact absurd h (by simp)
        · split at h
          · exact absurd h (by simp)
          · split at h
            · split at h
              · exact absurd h (by simp)
              · obtain ⟨rfl, rfl⟩ := finishStep_emit h
                refine ⟨rfl, ?_, ?_, ?_⟩
                · intro hno; simp [entryOverride?] at hno
                · intro n hn; simp [entryOverride?] at hn; simp [hn]
                · intro _; exact ⟨_, rfl⟩
            · obtain ⟨rfl, rfl⟩ := finishStep_emit h
              refine ⟨rfl, fun _ => rfl, ?_, fun _ => ⟨_, rfl⟩⟩
              intro n hn; simp [entryOverride?] at hn
      · split at h
        · obtain ⟨rfl, rfl⟩ := finishStep_emit h
          refine ⟨rfl, fun _ => rfl, ?_, ?_⟩
          · intro n hn; simp [entryOverride?] at hn
          · intro hv; simp [isVariantEntry] at hv
        · obtain ⟨rfl, rfl⟩ := finishStep_emit h
          refine ⟨rfl, fun _ => rfl, ?_, ?_⟩
          · intro n hn; simp [entryOverride?] at hn
          · intro hv; simp [isVariantEntry] at hv

/-- The loop fails exactly on the first failing line in scan order,
independently of the loop state. -/
theorem runLines_err (ls : List (List Char)) :
    ∀ b c, (runLines b c ls).2 = firstLineError ls := by
  induction ls with
  | nil => intro b c; simp [runLines, firstLineError]
  | cons raw ls ih =>
    intro b c
    by_cases hbr : startsWithChar rbrace (trimChars raw) = true
    · simp [runLines, lineStep_halt_of b c hbr, firstLineError, hbr]
    · have hbr' : startsWithChar rbrace (trimChars raw) = false := by simpa using hbr
      rcases lineStep_spec b c raw hbr' with ⟨e, herr, hstep⟩ | ⟨herr, hshape⟩
      · simp [runLines, hstep, firstLineError, hbr', herr]
      · rcases hshape with ⟨b2, hstep⟩ | ⟨en, c2, hstep⟩
        · simp [runLines, hstep, firstLineError, hbr', herr, ih]
        · simp [runLines, hstep, firstLineError, hbr', herr, ih]

/-- The emitted fragments obey the auto-increment discipline starting from
the loop counter, regardless of the initial buffer. -/
theorem runLines_chain (ls : List (List Char)) :
    ∀ b c, chainFrom c (runLines b c ls).1 = true := by
  induction ls with
  | nil => intro b c; simp [runLines, chainFrom]
  | cons raw ls ih =>
    intro b c
    cases hstep : lineStep b c raw with
    | halt => simp [runLines, hstep, chainFrom]
    | fail e => simp [runLines, hstep, chainFrom]
    | cont b2 c2 =>
      have hc2 : c2 = c := lineStep_cont_spec hstep
      subst hc2
      simpa [runLines, hstep] using ih b2 c2
    | emit en c2 =>
      obtain ⟨h1, h2, h3, _⟩ := lineStep_emit_spec hstep
      subst h1
      simp only [runLines, hstep, chainFrom, Bool.and_eq_true]
      constructor
      · cases ho : entryOverride? en with
        | none => simp [h2 ho]
        | some n => simp [h3 n ho]
      · exact ih defaultBuffer (en.code + 1)

/-! ## Attribute lines and the pending-message buffer -/

theorem isPrefixOfC_append {pat l : List Char} (h : isPrefixOfC pat l = true) :
    ∃ t, l = pat ++ t := by
  induction pat generalizing l with
  | nil => exact ⟨l, rfl⟩
  | cons p ps ih =>
    cases l with
    | nil => simp [isPrefixOfC] at h
    | cons c cs =>
      simp only [isPrefixOfC, Bool.and_eq_true, beq_iff_eq] at h
      obtain ⟨rfl, h2⟩ := h
      obtain ⟨t, rfl⟩ := ih h2
      exact ⟨t, rfl⟩

/-- Dropping a character that cannot start `"=>"` does not affect the
arrow-containment test. -/
theorem containsSub_arrow_cons {d : Char} (R : List Char) (hd : ('=' == d) = false) :
    containsSub emitArrow (d :: R) = containsSub emitArrow R := by
  show (isPrefixOfC emitArrow (d :: R) || containsSub emitArrow R) = containsSub emitArrow R
  simp [emitArrow, isPrefixOfC, hd]

/-- Appending the closing `"\",\n"` cannot create an occurrence of `"=>"`. -/
theorem containsSub_arrow_append_close (msg : List Char) :
    containsSub emitArrow (msg ++ "\x22,\n".data) = containsSub emitArrow msg := by
  induction msg with
  | nil => decide
  | cons ch t ih =>
    show (isPrefixOfC emitArrow (ch :: (t ++ "\x22,\n".data))
        || containsSub emitArrow (t ++ "\x22,\n".data))
      = (isPrefixOfC emitArrow (ch :: t) || containsSub emitArrow t)
    rw [ih]
    congr 1
    cases t with
    | nil => simp [emitArrow, isPrefixOfC]
    | cons d ds => simp [emitArrow, isPrefixOfC]

/-- The attribute buffer contains `"=>"` exactly when the extracted message
does: the `": "` opener and `"\",\n"` closer cannot complete an arrow. -/
theorem containsSub_arrow_attrRender (msg : List Char) :
    containsSub emitArrow (attrRender msg) = containsSub emitArrow msg := by
  show containsSub emitArrow (':' :: ' ' :: (msg ++ "\x22,\n".data)) = containsSub emitArrow msg
  rw [containsSub_arrow_cons _ (by decide), containsSub_arrow_cons _ (by decide),
    containsSub_arrow_append_close]

/-- Processing an attribute-shaped line reduces to `finishStep` on the
attribute buffer with an unchanged counter. -/
theorem lineStep_attr (b : List Char) (c : Int) (raw : List Char)
    (h1 : isPrefixOfC "#[".data (trimChars raw) = true)
    (h2 : isSuffixOfC ")]".data (trimChars raw) = true) :
    lineStep b c raw = finishStep .attrLine (attrRender (extractMsg (trimChars raw))) c := by
  obtain ⟨t, ht⟩ := isPrefixOfC_append h1
  have hbr : startsWithChar rbrace (trimChars raw) = false := by rw [ht]; rfl
  have hsl : (startsWithChar '/' (trimChars raw) || (trimChars raw).isEmpty) = false := by
    rw [ht]; rfl
  have hv : variantCond (trimChars raw) = false := by simp [variantCond, h1]
  have hat : attrCond (trimChars raw) = true := by simp [attrCond, h1, h2]
  simp [lineStep, hbr, hsl, hv, hat]

/-- A neutral line leaves an arrow-free buffer and the counter untouched. -/
theorem lineStep_neutral {b0 : List Char} (cnt : Int) {w : List Char}
    (hw : lineNeutral w = true) (hfree : containsSub emitArrow b0 = false) :
    lineStep b0 cnt w = .cont b0 cnt := by
  have hbr : startsWithChar rbrace (trimChars w) = false := by
    cases hq : startsWithChar rbrace (trimChars w)
    · rfl
    · simp [lineNeutral, hq] at hw
  by_cases hskip : (startsWithChar '/' (trimChars w) || (trimChars w).isEmpty) = true
  · simp [lineStep, hbr, hskip]
  · have hskip' : (startsWithChar '/' (trimChars w) || (trimChars w).isEmpty) = false := by
      simpa using hskip
    have hnv : variantCond (trimChars w) = false := by
      cases hq : variantCond (trimChars w)
      · rfl
      · simp [lineNeutral, hbr, hskip', hq] at hw
    have hna : attrCond (trimChars w) = false := by
      cases hq : attrCond (trimChars w)
      · rfl
      · simp [lineNeutral, hbr, hskip', hnv, hq] at hw
    have hst : lineStep b0 cnt w = finishStep .strayLine b0 cnt := by
      simp [lineStep, hbr, hskip', hnv, hna]
    rw [hst]
    unfold finishStep
    rw [if_neg (by simp [hfree])]

/-- A block of neutral lines can be dropped in front of any continuation of
the loop, as long as the buffer is arrow-free. -/
theorem runLines_neutral_prefix (mid : List (List Char)) :
    ∀ (b0 : List Char) (cnt : Int) (rest : List (List Char)),
    (∀ w ∈ mid, lineNeutral w = true) → containsSub emitArrow b0 = false →
    runLines b0 cnt (mid ++ rest) = runLines b0 cnt rest := by
  induction mid with
  | nil => intro b0 cnt rest _ _; rfl
  | cons w mid ih =>
    intro b0 cnt rest hmid hfree
    have hstep := lineStep_neutral cnt (hmid w (List.mem_cons_self w mid)) hfree
    show runLines b0 cnt (w :: (mid ++ rest)) = runLines b0 cnt rest
    simp only [runLines, hstep]
    exact ih b0 cnt rest (fun x hx => hmid x (List.mem_cons_of_mem w hx)) hfree

/-! ## Soundness of the emitted codes and keys -/

/-- As long as the counter is non-negative and every override value emitted is
non-negative, every emitted fragment has a non-negative code, and every
variant fragment renders with the uppercase-hexadecimal key of its code. -/
theorem runLines_entries_sound (ls : List (List Char)) :
    ∀ b c, 0 ≤ c →
    (∀ e ∈ (runLines b c ls).1, ∀ n, entryOverride? e = some n → 0 ≤ n) →
    ∀ e ∈ (runLines b c ls).1, 0 ≤ e.code ∧
      (isVariantEntry e = true → ∃ tail, e.rendered
        = "    \x22".data ++ natHex e.code.toNat ++ "\x22 => \x22".data ++ tail) := by
  induction ls with
  | nil => intro b c _ _ e he; simp [runLines] at he
  | cons raw ls ih =>
    intro b c hc hov e he
    cases hstep : lineStep b c raw with
    | halt => simp only [runLines, hstep] at he; simp at he
    | fail e' => simp only [runLines, hstep] at he; simp at he
    | cont b2 c2 =>
      have hc2 := lineStep_cont_spec hstep
      subst hc2
      simp only [runLines, hstep] at he hov
      exact ih b2 _ hc hov e he
    | emit en c2 =>
      obtain ⟨h1, h2, h3, h4⟩ := lineStep_emit_spec hstep
      simp only [runLines, hstep, List.mem_cons] at he hov
      have hen_code : 0 ≤ en.code := by
        cases ho : entryOverride? en with
        | none => rw [h2 ho]; exact hc
        | some n => rw [h3 n ho]; exact hov en (Or.inl rfl) n ho
      rcases he with rfl | he
      · refine ⟨hen_code, fun hv => ?_⟩
        obtain ⟨sym, hr⟩ := h4 hv
        refine ⟨sym ++ b, ?_⟩
        rw [hr]
        unfold variantRender rustHexX
        rw [if_pos hen_code]
        simp [List.append_assoc]
      · have hc2' : 0 ≤ c2 := by omega
        exact ih defaultBuffer c2 hc2' (fun e' he' n hn => hov e' (Or.inr he') n hn) e he

/-! ## The panic condition of the enum-name derivation -/

theorem capWords_eq_none_iff (ws : List (List Char)) :
    capWords ws = none ↔ ws.any List.isEmpty = true := by
  induction ws with
  | nil => simp [capWords]
  | cons w ws ih =>
    cases w with
    | nil => simp [capWords, capitalizeWord]
    | cons ch cs =>
      cases hrec : capWords ws with
      | none =>
        have hany := ih.mp hrec
        simp [capWords, capitalizeWord, hrec, hany]
      | some cws =>
        have hany : ws.any List.isEmpty = false := by
          rcases h : ws.any List.isEmpty with _ | _
          · rfl
          · exact absurd hrec (by simp [ih.mpr h])
        simp [capWords, capitalizeWord, hrec, hany]

theorem enumNameOf?_eq_none_iff (f : List Char) :
    enumNameOf? f = none ↔ panicCond f = true := by
  unfold enumNameOf? panicCond
  by_cases ha : isAnchorFile f = true
  · simp [ha]
  · have ha' : isAnchorFile f = false := by simpa using ha
    by_cases hcand : fileCap f = "CANDY_CORE_ERROR".data
    · simp [ha', hcand]
    · have hcand' : (fileCap f == "CANDY_CORE_ERROR".data) = false := by
        simpa using hcand
      simp [ha', hcand, hcand', Option.map_eq_none, capWords_eq_none_iff]

/-! ## The `cannotParse` branch is dead code -/

theorem lineError?_ne_cannotParse (raw : List Char) :
    lineError? raw ≠ some .cannotParse := by
  intro hcp
  simp only [lineError?] at hcp
  split at hcp
  · simp at hcp
  · split at hcp
    · split at hcp
      · simp at hcp
      · split at hcp
        · split at hcp
          · simp at hcp
          · simp at hcp
        · simp at hcp
    · simp at hcp

theorem firstLineError_ne_cannotParse (ls : List (List Char)) :
    firstLineError ls ≠ some .cannotParse := by
  induction ls with
  | nil => simp [firstLineError]
  | cons raw ls ih =>
    simp only [firstLineError]
    split
    · simp
    · cases hle : lineError? raw with
      | none => simpa [hle] using ih
      | some e =>
        simp only [hle]
        intro h
        exact lineError?_ne_cannotParse raw (hle.trans h)

/-! ## Dropping a dangling attribute line before the closing brace -/

/-- A dangling attribute line (arrow-free message) immediately followed by the
closing-brace line can be removed without changing the run. -/
theorem runLines_drop_dangling_attr (pre : List (List Char)) :
    ∀ b c attrRaw closeRaw rest,
    isPrefixOfC "#[".data (trimChars attrRaw) = true →
    isSuffixOfC ")]".data (trimChars attrRaw) = true →
    containsSub emitArrow (extractMsg (trimChars attrRaw)) = false →
    startsWithChar rbrace (trimChars closeRaw) = true →
    runLines b c (pre ++ attrRaw :: closeRaw :: rest)
      = runLines b c (pre ++ closeRaw :: rest) := by
  induction pre with
  | nil =>
    intro b c attrRaw closeRaw rest h1 h2 h3 hclose
    have hstep : lineStep b c attrRaw
        = .cont (attrRender (extractMsg (trimChars attrRaw))) c := by
      rw [lineStep_attr b c attrRaw h1 h2]
      unfold finishStep
      rw [if_neg (by simp [containsSub_arrow_attrRender, h3])]
    have hhalt1 := lineStep_halt_of (attrRender (extractMsg (trimChars attrRaw))) c hclose
    have hhalt2 := lineStep_halt_of b c hclose
    simp [runLines, hstep, hhalt1, hhalt2]
  | cons raw pre ih =>
    intro b c attrRaw closeRaw rest h1 h2 h3 hclose
    show runLines b c (raw :: (pre ++ attrRaw :: closeRaw :: rest))
      = runLines b c (raw :: (pre ++ closeRaw :: rest))
    cases hstep : lineStep b c raw with
    | halt => simp [runLines, hstep]
    | fail e => simp [runLines, hstep]
    | cont b2 c2 =>
      simp only [runLines, hstep]
      exact ih b2 c2 attrRaw closeRaw rest h1 h2 h3 hclose
    | emit en c2 =>
      simp only [runLines, hstep]
      rw [ih defaultBuffer c2 attrRaw closeRaw rest h1 h2 h3 hclose]

/-! ## Correctness of the hexadecimal rendering -/

theorem hexDigVal_hexDigit {d : Nat} (h : d < 16) : hexDigVal (hexDigit d) = d := by
  interval_cases d <;> decide

theorem isUpperHexDigit_hexDigit {d : Nat} (h : d < 16) :
    isUpperHexDigit (hexDigit d) = true := by
  interval_cases d <;> decide

theorem hexVal_append_digit (l : List Char) (ch : Char) :
    hexVal (l ++ [ch]) = hexVal l * 16 + hexDigVal ch := by
  simp [hexVal, List.foldl_append]

theorem natHexAux_spec (fuel : Nat) : ∀ n, n ≤ fuel →
    hexVal (natHexAux fuel n) = n ∧ (natHexAux fuel n).all isUpperHexDigit = true
      ∧ natHexAux fuel n ≠ [] := by
  induction fuel with
  | zero =>
    intro n hn
    have hz : n = 0 := by omega
    subst hz
    exact ⟨by decide, by decide, by decide⟩
  | succ fuel ih =>
    intro n hn
    by_cases h : n < 16
    · simp only [natHexAux, if_pos h]
      exact ⟨by simp [hexVal, hexDigVal_hexDigit h], by simp [isUpperHexDigit_hexDigit h],
        by simp⟩
    · simp only [natHexAux, if_neg h]
      have hlt : n / 16 < n := Nat.div_lt_self (by omega) (by omega)
      obtain ⟨ih1, ih2, _⟩ := ih (n / 16) (by omega)
      refine ⟨?_, ?_, by simp⟩
      · rw [hexVal_append_digit, ih1, hexDigVal_hexDigit (Nat.mod_lt _ (by omega))]
        omega
      · simp [List.all_append, ih2, isUpperHexDigit_hexDigit (Nat.mod_lt _ (by omega))]

/-- The hexadecimal rendering is faithful: it evaluates back to its input,
uses only uppercase hexadecimal digits, and is nonempty. -/
theorem natHex_spec (n : Nat) :
    hexVal (natHex n) = n ∧ (natHex n).all isUpperHexDigit = true ∧ natHex n ≠ [] :=
  natHexAux_spec n n (Nat.le_refl n)

/-! ## Helper lemmas for the lookup and the missing-edition computation -/

theorem length_filterMap_eq_countP {α β : Type} (g : α → Option β) (l : List α) :
    (l.filterMap g).length = l.countP (fun x => (g x).isSome) := by
  induction l with
  | nil => simp
  | cons a l ih =>
    cases hg : g a <;> simp [List.filterMap_cons, hg, List.countP_cons, ih]

theorem sorted_foldr_max (s : List Nat) :
    List.Pairwise (fun a b => a ≤ b) s → s.foldr max 0 = s.getLast?.getD 0 := by
  induction s with
  | nil => intro _; rfl
  | cons x xs ih =>
    intro hs
    rw [List.pairwise_cons] at hs
    obtain ⟨hx, hxs⟩ := hs
    cases xs with
    | nil => simp
    | cons y ys =>
      have hrec := ih hxs
      rw [show (x :: y :: ys).foldr max 0 = max x ((y :: ys).foldr max 0) from rfl, hrec,
        List.getLast?_cons_cons]
      apply max_eq_right
      have hmem : (y :: ys).getLast?.getD 0 ∈ y :: ys := by
        rw [List.getLast?_eq_getLast _ (by simp)]
        exact List.getLast_mem _
      exact hx _ hmem

/-! ## Claim theorems -/

/-- Claim C5: the starting code chosen by the parser is 100 when the file name
contains the marker `"anchor"`, otherwise 6000 when the source text contains
the substring `"#[msg"`, otherwise 0. -/
theorem starting_code_selection (f c : List Char) :
    startingErrorNumber f c
      = if containsSub "anchor".data f = true then 100
        else if containsSub "#[msg".data c = true then 6000 else 0 := by
  cases h1 : containsSub "anchor".data f <;>
    cases h2 : containsSub "#[msg".data c <;>
    simp [startingErrorNumber, isAnchorFile, h1, h2]

/-- Claim C6: parsing the two attribute/variant pairs under the anchor naming
convention (start code 100) renders `"64" => "NotInitialized: Account not
initialized"` immediately followed by `"65" => "InvalidOwner: Invalid owner"`. -/
theorem anchor_concrete_render :
    convert_to_wtf_error anchorTestName anchorTestSource
      = .ok (generate_phf_map_var "ANCHOR".data
          ++ "    \x2264\x22 => \x22NotInitialized: Account not initialized\x22,\n".data
          ++ "    \x2265\x22 => \x22InvalidOwner: Invalid owner\x22,\n".data
          ++ "\x7d;\n\n".data)
    ∧ containsSub
        ("    \x2264\x22 => \x22NotInitialized: Account not initialized\x22,\n".data
          ++ "    \x2265\x22 => \x22InvalidOwner: Invalid owner\x22,\n".data)
        ((generate_phf_map_var "ANCHOR".data
          ++ "    \x2264\x22 => \x22NotInitialized: Account not initialized\x22,\n".data
          ++ "    \x2265\x22 => \x22InvalidOwner: Invalid owner\x22,\n".data
          ++ "\x7d;\n\n".data)) = true := by
  constructor
  · decide
  · decide

/-- Claim C7: from counter 6000, the variant line `Overflow = 6010,` emits an
entry with key `"177A"` (uppercase hexadecimal of 6010), and the next
automatically assigned code is 6011. -/
theorem override_6010_renders_177A :
    runLines defaultBuffer 6000 ["Overflow = 6010,".data, "NextThing,".data]
      = ([⟨6010, .variantLine (some 6010), "    \x22177A\x22 => \x22Overflow\x22,\n".data⟩,
          ⟨6011, .variantLine none, "    \x22177B\x22 => \x22NextThing\x22,\n".data⟩], none) := by
  decide

/-- Claim C4: in the ordered sequence of emitted entries, every entry without
an explicit override carries the previous entry's code plus one, the first
entry (when it has no override) carries the domain's starting code, and an
override entry carries its own override value. -/
theorem emitted_codes_auto_increment (f c : List Char) :
    chainFrom (startingErrorNumber f c) (convert_entries f c) = true := by
  unfold convert_entries convert_result
  split
  · simp [chainFrom]
  · split
    · simp [chainFrom]
    · split
      · simp [chainFrom]
      · dsimp only
        split
        · split
          · exact runLines_chain _ _ _
          · exact runLines_chain _ _ _
        · simp [chainFrom]

/-- Claim C2, counterexample: the parser panics on the file name `"-"` (its
cleaned name splits into empty words), although no failure condition of the
claim applies, so the parser does not "return a result normally" there. -/
theorem convert_panics_on_dash_file_name :
    convert_to_wtf_error "-".data "ErrorCode \x7b\n    A,\n\x7d".data = .panicked := by
  decide

/-- Claim C3, counterexample: the claim fails in two ways.  First, for the
attribute line `#[error("a => b")]` (message containing `"=>"`), processing
the attribute line itself emits a fragment and advances the counter, and the
following variant `X,` is emitted with code 1 and without the message.
Second, a pending message is not appended after the next variant line when
another attribute line intervenes: with `#[error("m1")]`, `#[error("m2")]`,
`V,` the only entry renders `V: m2` — the message `m1` is overwritten and
never appended. -/
theorem attr_arrow_message_emits_counterexample :
    runLines defaultBuffer 0 ["#[error(\x22a => b\x22)]".data, "X,".data]
      = ([⟨0, .attrLine, ": a => b\x22,\n".data⟩,
          ⟨1, .variantLine none, "    \x221\x22 => \x22X\x22,\n".data⟩], none)
    ∧ runLines defaultBuffer 0
        ["#[error(\x22m1\x22)]".data, "#[error(\x22m2\x22)]".data, "V,".data]
      = ([⟨0, .variantLine none, "    \x220\x22 => \x22V: m2\x22,\n".data⟩], none) :=
  ⟨by decide, by decide⟩

/-- Claim C8, counterexample: the override `A = -5,` yields an emitted entry
with the negative code −5, rendered with the 64-bit two's-complement key
`FFFFFFFFFFFFFFFB` — not the plain uppercase hexadecimal of a non-negative
code. -/
theorem negative_override_entry_counterexample :
    convert_entries metaTestName "Meta \x7b\nA = -5,\n\x7d".data
      = [⟨-5, .variantLine (some (-5)),
          "    \x22FFFFFFFFFFFFFFFB\x22 => \x22A\x22,\n".data⟩] := by
  decide

/-- Claim C9, counterexample: the claim fails in two ways.  First, a dangling
attribute whose message contains `"=>"` is spilled into the output, so the
output differs from the one without the attribute line.  Second, a dangling
`#[msg("h")]` attribute (arrow-free, contributing no entry) is the source's
only `"#[msg"` occurrence, so removing it flips the starting code from 6000
to 0: both parses succeed but render different keys (`"1770"` versus `"0"`). -/
theorem dangling_attr_arrow_output_change :
    convert_to_wtf_error metaTestName "Meta \x7b\nA,\n#[error(\x22x => y\x22)]\n\x7d".data
      ≠ convert_to_wtf_error metaTestName "Meta \x7b\nA,\n\x7d".data
    ∧ convert_to_wtf_error metaTestName "Meta \x7b\nA,\n#[msg(\x22h\x22)]\n\x7d".data
      = .ok (generate_phf_map_var "META".data
          ++ "    \x221770\x22 => \x22A\x22,\n".data ++ "\x7d;\n\n".data)
    ∧ convert_to_wtf_error metaTestName "Meta \x7b\nA,\n\x7d".data
      = .ok (generate_phf_map_var "META".data
          ++ "    \x220\x22 => \x22A\x22,\n".data ++ "\x7d;\n\n".data) :=
  ⟨by decide, by decide, by decide⟩

theorem expectedOutcome_ne_cannotParse (f c : List Char) :
    expectedOutcome f c ≠ some (some .cannotParse) := by
  unfold expectedOutcome
  split
  · simp
  · intro h
    simp only [Option.some.injEq] at h
    split at h
    · simp at h
    · split at h
      · simp at h
      · split at h
        · simp at h
        · split at h
          · exact firstLineError_ne_cannotParse _ h
          · simp at h

/-- Claim C2 (amended): the parser panics exactly on the condition
`panicCond` (cleaned file name with an empty word, neither anchor nor
candy-core); otherwise it fails with `EnumNotFound` exactly when the derived
enum name is absent, with `MalformedEnum` exactly when the slice two
characters past the name is out of range or has no closing brace, and
otherwise the first failing body line (scanning in order, stopping at a
brace line) determines the failure: `MalformedEnum` for a comma-less variant
line, `InvalidOverrideCode` for an unparseable override; on every other
input it returns a result normally, and no other failure (in particular the
internal cannot-parse error) ever occurs.  The whole classification is the
function `expectedOutcome`. -/
theorem convert_failure_classification (f c : List Char) :
    (convert_to_wtf_error f c = .panicked ↔ expectedOutcome f c = none)
    ∧ (∀ e, convert_to_wtf_error f c = .err e ↔ expectedOutcome f c = some (some e))
    ∧ ((∃ s, convert_to_wtf_error f c = .ok s) ↔ expectedOutcome f c = some none)
    ∧ (∀ e, convert_to_wtf_error f c = .err e → e ≠ .cannotParse) := by
  have hmain : (convert_to_wtf_error f c = .panicked ↔ expectedOutcome f c = none)
      ∧ (∀ e, convert_to_wtf_error f c = .err e ↔ expectedOutcome f c = some (some e))
      ∧ ((∃ s, convert_to_wtf_error f c = .ok s) ↔ expectedOutcome f c = some none) := by
    cases hnm : enumNameOf? f with
    | none =>
      have hp : panicCond f = true := (enumNameOf?_eq_none_iff f).mp hnm
      unfold convert_to_wtf_error convert_result expectedOutcome
      simp [hnm, hp]
    | some nm =>
      have hpf : panicCond f = false := by
        rcases hq : panicCond f
        · rfl
        · exact absurd hnm (by simp [(enumNameOf?_eq_none_iff f).mpr hq])
      unfold convert_to_wtf_error convert_result expectedOutcome
      cases hidx : firstIdxOfSub nm c with
      | none => simp [hnm, hpf, hidx]
      | some i =>
        cases hdrop : dropGet? (i + nm.length + 2) c with
        | none => simp [hnm, hpf, hidx, hdrop]
        | some rest =>
          by_cases hbrace : (trimChars rest).contains rbrace = true
          · have hb : rbrace ∈ trimChars rest := by simpa using hbrace
            have herr := runLines_err (splitLines (trimChars rest)) defaultBuffer
              (startingErrorNumber f c)
            cases hfle : firstLineError (splitLines (trimChars rest)) with
            | none =>
              rw [hfle] at herr
              simp [hnm, hpf, hidx, hdrop, hbrace, hb, hfle, herr]
            | some e' =>
              rw [hfle] at herr
              simp [hnm, hpf, hidx, hdrop, hbrace, hb, hfle, herr]
          · have hb : ¬ rbrace ∈ trimChars rest := by simpa using hbrace
            simp [hnm, hpf, hidx, hdrop, hb]
  refine ⟨hmain.1, hmain.2.1, hmain.2.2, fun e he hcp => ?_⟩
  subst hcp
  exact expectedOutcome_ne_cannotParse f c ((hmain.2.1 _).mp he)

/-- Claim C2, witness: a well-formed input classified as a normal result. -/
theorem convert_failure_classification_witness :
    ∃ s, convert_to_wtf_error metaTestName "Meta \x7b\nGood,\n\x7d".data = .ok s :=
  (convert_failure_classification metaTestName "Meta \x7b\nGood,\n\x7d".data).2.2.1.mpr
    (by decide)

theorem filterMap_cons_decompose {α β : Type} (g : α → Option β) (d : α) (l : List α) :
    List.filterMap g (d :: l)
      = (match g d with | some b => [b] | none => []) ++ List.filterMap g l := by
  cases hg : g d <;> simp [List.filterMap_cons, hg]

theorem Option.map_match_rows {γ β : Type} (o : Option γ) (f : γ → β) :
    (match o.map f with | some b => [b] | none => ([] : List β))
      = match o with | some e => [f e] | none => [] := by
  cases o <;> rfl

set_option maxHeartbeats 1000000 in
/-- Claim C1: `find_errors` equals, for every choice of the seven domain
tables, the filter-map of the fixed catalog in declaration order over the
uppercased code; hence it returns exactly one row when the uppercased code is
a key of exactly one table, the empty list when it is a key of none, and the
lookups of `"1a"` and `"1A"` coincide. -/
theorem find_errors_lookup_spec (t : ErrTables) (code : List Char) :
    find_errors t code = lookupSpec t code
    ∧ ((catalogOf t).countP (fun d => (d.2 (toUpperChars code)).isSome) = 1
        → (find_errors t code).length = 1)
    ∧ ((∀ d ∈ catalogOf t, d.2 (toUpperChars code) = none) → find_errors t code = [])
    ∧ find_errors t "1a".data = find_errors t "1A".data := by
  have hmain : ∀ code2 : List Char, find_errors t code2 = lookupSpec t code2 := by
    intro code2
    unfold find_errors lookupSpec catalogOf
    simp only [filterMap_cons_decompose, List.filterMap_nil, Option.map_match_rows,
      List.append_nil, List.append_assoc]
    cases t.anchorTable (toUpperChars code2) <;>
      cases t.metadataTable (toUpperChars code2) <;>
      cases t.auctionHouseTable (toUpperChars code2) <;>
      cases t.auctioneerTable (toUpperChars code2) <;>
      cases t.candyTable (toUpperChars code2) <;>
      cases t.candyCoreTable (toUpperChars code2) <;>
      cases t.candyGuardTable (toUpperChars code2) <;>
      rfl
  refine ⟨hmain code, ?_, ?_, ?_⟩
  · intro hcount
    rw [hmain code]
    unfold lookupSpec
    rw [length_filterMap_eq_countP]
    rw [List.countP_congr (fun d _ => ?_)] at hcount
    · exact hcount
    · simp
  · intro hnone
    rw [hmain code]
    unfold lookupSpec
    rw [List.filterMap_eq_nil_iff]
    intro d hd
    simp [hnone d hd]
  · rw [hmain _, hmain _]
    unfold lookupSpec
    rw [show toUpperChars ("1a".data) = toUpperChars ("1A".data) from by decide]

/-- Claim C1, witness: in a catalog whose only table containing `"1A"` is the
anchor table, looking up `"1a"` returns exactly one row. -/
theorem find_errors_lookup_spec_witness :
    (find_errors testTables "1a".data).length = 1 :=
  (find_errors_lookup_spec testTables "1a".data).2.1 (by decide)

/-- Claim C10: the missing-edition computation returns a strictly increasing
list containing exactly the values between 1 and the largest decoded edition
number that are absent from the decoded numbers, and the empty list when
nothing was decoded. -/
theorem find_missing_editions_spec (nums : List Nat) :
    List.Pairwise (· < ·) (find_missing_editions nums)
    ∧ (∀ i, i ∈ find_missing_editions nums ↔ 1 ≤ i ∧ i ≤ listMax nums ∧ i ∉ nums)
    ∧ (nums = [] → find_missing_editions nums = []) := by
  have htrans : ∀ a b c : Nat, natLE a b = true → natLE b c = true → natLE a c = true := by
    intro a b c hab hbc
    simp [natLE] at hab hbc ⊢
    omega
  have htotal : ∀ a b : Nat, (natLE a b || natLE b a) = true := by
    intro a b
    rcases Nat.le_total a b with h | h <;> simp [natLE, h]
  have hperm := List.mergeSort_perm nums natLE
  have hsorted : List.Pairwise (fun a b : Nat => a ≤ b) (nums.mergeSort natLE) :=
    (List.sorted_mergeSort htrans htotal nums).imp (by intro a b h; simpa [natLE] using h)
  have hM : (nums.mergeSort natLE).getLast?.getD 0 = listMax nums := by
    rw [← sorted_foldr_max _ hsorted]
    unfold listMax
    haveI : LeftCommutative (max : Nat → Nat → Nat) := ⟨fun a b c => max_left_comm a b c⟩
    exact hperm.foldr_eq 0
  refine ⟨?_, ?_, ?_⟩
  · unfold find_missing_editions
    exact (List.pairwise_lt_range' 1 _).filter _
  · intro i
    simp only [find_missing_editions]
    rw [hM]
    constructor
    · intro him
      rw [List.mem_filter, List.mem_range'_1] at him
      obtain ⟨⟨hge, hlt⟩, hp⟩ := him
      refine ⟨hge, by omega, fun hmem => ?_⟩
      simp [hmem] at hp
    · rintro ⟨hge, hle, hnot⟩
      rw [List.mem_filter, List.mem_range'_1]
      exact ⟨⟨hge, by omega⟩, by simp [hnot]⟩
  · intro h
    subst h
    simp [find_missing_editions, List.mergeSort_nil]

/-- Claim C10, witness: the decoded multiset `[5, 2, 2, 1]` has exactly the
missing editions 3 and 4. -/
theorem find_missing_editions_spec_witness :
    (3 ∈ find_missing_editions [5, 2, 2, 1] ∧ 4 ∈ find_missing_editions [5, 2, 2, 1])
    ∧ ¬ 2 ∈ find_missing_editions [5, 2, 2, 1] := by
  have h := (find_missing_editions_spec [5, 2, 2, 1]).2.1
  refine ⟨⟨(h 3).mpr (by decide), (h 4).mpr (by decide)⟩, fun hmem => ?_⟩
  exact ((h 2).mp hmem).2.2 (by decide)

/-- Claim C3 (amended): an attribute line whose extracted message does not
contain `"=>"` emits nothing and leaves the running code counter unchanged —
processing it only overwrites the pending buffer with the message (in
particular, a later attribute line replaces rather than appends to a pending
message, which is then silently dropped).  The stored message survives every
intervening neutral line (comment, blank, or a line caught by neither branch)
and is appended after the symbol of the next variant line with a `": "`
separator, whether that variant auto-increments or carries an `=` override. -/
theorem attr_line_pending_buffer (b : List Char) (cnt : Int) (raw : List Char)
    (mid : List (List Char)) (v : List Char) (ls : List (List Char)) (idx : Nat)
    (h1 : isPrefixOfC "#[".data (trimChars raw) = true)
    (h2 : isSuffixOfC ")]".data (trimChars raw) = true)
    (h3 : containsSub emitArrow (extractMsg (trimChars raw)) = false)
    (hmid : mid.all lineNeutral = true)
    (hbr : startsWithChar rbrace (trimChars v) = false)
    (hsl : (startsWithChar '/' (trimChars v) || (trimChars v).isEmpty) = false)
    (hv : variantCond (trimChars v) = true)
    (hidx : findIdxChar ',' (trimChars v) = some idx) :
    lineStep b cnt raw = .cont (attrRender (extractMsg (trimChars raw))) cnt
    ∧ (((trimChars v).take idx).contains '=' = false →
        runLines b cnt (raw :: (mid ++ v :: ls))
          = (⟨cnt, .variantLine none,
              "    \x22".data ++ rustHexX cnt ++ "\x22 => \x22".data ++ (trimChars v).take idx
                ++ ": ".data ++ extractMsg (trimChars raw) ++ "\x22,\n".data⟩
              :: (runLines defaultBuffer (cnt + 1) ls).1,
             (runLines defaultBuffer (cnt + 1) ls).2))
    ∧ (∀ n, ((trimChars v).take idx).contains '=' = true →
        parseI64 (trimChars ((splitOnChar '=' ((trimChars v).take idx)).getD 1 [])) = some n →
        runLines b cnt (raw :: (mid ++ v :: ls))
          = (⟨n, .variantLine (some n),
              "    \x22".data ++ rustHexX n ++ "\x22 => \x22".data
                ++ trimChars ((splitOnChar '=' ((trimChars v).take idx)).getD 0 [])
                ++ ": ".data ++ extractMsg (trimChars raw) ++ "\x22,\n".data⟩
              :: (runLines defaultBuffer (n + 1) ls).1,
             (runLines defaultBuffer (n + 1) ls).2)) := by
  have hstep1 : lineStep b cnt raw = .cont (attrRender (extractMsg (trimChars raw))) cnt := by
    rw [lineStep_attr b cnt raw h1 h2]
    unfold finishStep
    rw [if_neg (by simp [containsSub_arrow_attrRender, h3])]
  have hfree : containsSub emitArrow (attrRender (extractMsg (trimChars raw))) = false := by
    rw [containsSub_arrow_attrRender]
    exact h3
  have hmid' : ∀ w ∈ mid, lineNeutral w = true := List.all_eq_true.mp hmid
  have hrun : runLines b cnt (raw :: (mid ++ v :: ls))
      = runLines (attrRender (extractMsg (trimChars raw))) cnt (v :: ls) := by
    rw [show runLines b cnt (raw :: (mid ++ v :: ls))
        = runLines (attrRender (extractMsg (trimChars raw))) cnt (mid ++ v :: ls) from by
      simp only [runLines, hstep1]]
    exact runLines_neutral_prefix mid _ cnt (v :: ls) hmid' hfree
  have htake : takeGet? idx (trimChars v) = some ((trimChars v).take idx) := by
    unfold takeGet?
    rw [if_pos (Nat.le_of_lt (findIdxChar_lt hidx))]
  refine ⟨hstep1, fun hnoeq => ?_, fun n heq hparse => ?_⟩
  · have hm : ¬ '=' ∈ (trimChars v).take idx := by simpa using hnoeq
    have hstep2 : lineStep (attrRender (extractMsg (trimChars raw))) cnt v
        = .emit ⟨cnt, .variantLine none,
            variantRender cnt ((trimChars v).take idx)
              (attrRender (extractMsg (trimChars raw)))⟩ (cnt + 1) := by
      have ha : lineStep (attrRender (extractMsg (trimChars raw))) cnt v
          = finishStep (.variantLine none)
            (variantRender cnt ((trimChars v).take idx)
              (attrRender (extractMsg (trimChars raw)))) cnt := by
        simp [lineStep, hbr, hsl, hv, hidx, htake, hm]
      rw [ha]
      unfold finishStep
      rw [if_pos (variantRender_contains_arrow _ _ _)]
    rw [hrun]
    simp only [runLines, hstep2]
    simp [variantRender, attrRender, List.append_assoc]
  · have hm : '=' ∈ (trimChars v).take idx := by simpa using heq
    have hparse2 : parseI64 (trimChars
        ((splitOnChar '=' ((trimChars v).take idx))[1]?.getD [])) = some n := by
      rw [← List.getD_eq_getElem?_getD]
      exact hparse
    have hstep2 : lineStep (attrRender (extractMsg (trimChars raw))) cnt v
        = .emit ⟨n, .variantLine (some n),
            variantRender n (trimChars ((splitOnChar '=' ((trimChars v).take idx)).getD 0 []))
              (attrRender (extractMsg (trimChars raw)))⟩ (n + 1) := by
      have ha : lineStep (attrRender (extractMsg (trimChars raw))) cnt v
          = finishStep (.variantLine (some n))
            (variantRender n (trimChars ((splitOnChar '=' ((trimChars v).take idx)).getD 0 []))
              (attrRender (extractMsg (trimChars raw)))) n := by
        simp [lineStep, hbr, hsl, hv, hidx, htake, hm, hparse, hparse2]
      rw [ha]
      unfold finishStep
      rw [if_pos (variantRender_contains_arrow _ _ _)]
    rw [hrun]
    simp only [runLines, hstep2]
    simp [variantRender, attrRender, List.append_assoc]

/-- Claim C3, witness: the attribute line `#[error("Some msg")]`, followed by
a comment line and then the variant `Var,`, stores the pending message at the
attribute step without emitting or touching the counter. -/
theorem attr_line_pending_buffer_witness :
    lineStep defaultBuffer 0 "#[error(\x22Some msg\x22)]".data
      = .cont (attrRender (extractMsg (trimChars "#[error(\x22Some msg\x22)]".data))) 0 :=
  (attr_line_pending_buffer defaultBuffer 0 "#[error(\x22Some msg\x22)]".data
    ["// note".data] "Var,".data [] 3
    (by decide) (by decide) (by decide) (by decide) (by decide) (by decide) (by decide)
    (by decide)).1

theorem startingErrorNumber_nonneg (f c : List Char) : 0 ≤ startingErrorNumber f c := by
  cases h1 : isAnchorFile f <;> cases h2 : containsSub "#[msg".data c <;>
    simp [startingErrorNumber, h1, h2]

theorem convert_entries_cases (f c : List Char) :
    convert_entries f c = []
    ∨ ∃ ls, convert_entries f c
        = (runLines defaultBuffer (startingErrorNumber f c) ls).1 := by
  unfold convert_entries convert_result
  split
  · exact Or.inl rfl
  · split
    · exact Or.inl rfl
    · split
      · exact Or.inl rfl
      · dsimp only
        split
        · split
          · exact Or.inr ⟨_, rfl⟩
          · exact Or.inr ⟨_, rfl⟩
        · exact Or.inl rfl

theorem no_0x_of_upperHex (l : List Char) (h : l.all isUpperHexDigit = true) :
    isPrefixOfC "0x".data l = false := by
  cases l with
  | nil => rfl
  | cons a t =>
    cases t with
    | nil => simp [isPrefixOfC]
    | cons b u =>
      have hb : isUpperHexDigit b = true := by
        simp only [List.all_cons, Bool.and_eq_true] at h
        exact h.2.1
      have hbx : ('x' == b) = false := by
        by_cases hx : b = 'x'
        · subst hx; exact absurd hb (by decide)
        · exact beq_eq_false_iff_ne.mpr (fun hh => hx hh.symm)
      simp [isPrefixOfC, hbx]

/-- Claim C8 (amended): when every explicit override emitted by a parse is
non-negative, every emitted fragment has a non-negative code, and every
variant fragment renders with lookup key exactly the uppercase hexadecimal
representation of its code, with no `"0x"` prefix.  (An override may also set
a negative code, rendered as 64-bit two's-complement hexadecimal, and an
attribute fragment with an arrow message carries no key: see the
counterexample.) -/
theorem entry_key_uppercase_hex (f c : List Char)
    (hov : ∀ e ∈ convert_entries f c, ∀ n, entryOverride? e = some n → 0 ≤ n) :
    ∀ e ∈ convert_entries f c, 0 ≤ e.code
    ∧ (isVariantEntry e = true → ∃ tail, e.rendered
        = "    \x22".data ++ natHex e.code.toNat ++ "\x22 => \x22".data ++ tail
        ∧ hexVal (natHex e.code.toNat) = e.code.toNat
        ∧ (natHex e.code.toNat).all isUpperHexDigit = true
        ∧ isPrefixOfC "0x".data (natHex e.code.toNat) = false) := by
  rcases convert_entries_cases f c with hnil | ⟨ls, hls⟩
  · intro e he
    rw [hnil] at he
    simp at he
  · rw [hls] at hov ⊢
    intro e he
    have hsound := runLines_entries_sound ls defaultBuffer (startingErrorNumber f c)
      (startingErrorNumber_nonneg f c) hov e he
    refine ⟨hsound.1, fun hv => ?_⟩
    obtain ⟨tail, ht⟩ := hsound.2 hv
    obtain ⟨hx1, hx2, _⟩ := natHex_spec e.code.toNat
    exact ⟨tail, ht, hx1, hx2, no_0x_of_upperHex _ hx2⟩

/-- Claim C8, witness: the parse of `A = 7,` has one entry, with code 7 and a
hexadecimal key. -/
theorem entry_key_uppercase_hex_witness :
    0 ≤ (Entry.mk 7 (.variantLine (some 7)) "    \x227\x22 => \x22A\x22,\n".data).code :=
  (entry_key_uppercase_hex metaTestName "Meta \x7b\nA = 7,\n\x7d".data
    (by intro e he n hn
        simp [show convert_entries metaTestName "Meta \x7b\nA = 7,\n\x7d".data
          = [⟨7, .variantLine (some 7), "    \x227\x22 => \x22A\x22,\n".data⟩] from by decide]
          at he
        subst he
        simp [entryOverride?] at hn
        omega)
    (Entry.mk 7 (.variantLine (some 7)) "    \x227\x22 => \x22A\x22,\n".data)
    (by decide)).1

/-- Claim C9 (amended): for a pair of full sources that parse to the same
enum body except for one dangling attribute line immediately before the
closing-brace line, both parses succeed or fail identically and produce the
same output, provided the dangling attribute's extracted message does not
contain `"=>"` and the two sources select the same starting code.  (An arrow
message is spilled into the output, and removing a `#[msg` attribute that is
the source's only `"#[msg"` occurrence flips the starting code from 6000 to
0, changing every key: see the counterexample.) -/
theorem dangling_attr_dropped (f c1 c2 nm : List Char)
    (pre : List (List Char)) (attrRaw closeRaw : List Char) (rest : List (List Char))
    (i1 i2 : Nat) (r1 r2 : List Char)
    (hnm : enumNameOf? f = some nm)
    (hi1 : firstIdxOfSub nm c1 = some i1)
    (hi2 : firstIdxOfSub nm c2 = some i2)
    (hr1 : dropGet? (i1 + nm.length + 2) c1 = some r1)
    (hr2 : dropGet? (i2 + nm.length + 2) c2 = some r2)
    (hb1 : (trimChars r1).contains rbrace = true)
    (hb2 : (trimChars r2).contains rbrace = true)
    (hl1 : splitLines (trimChars r1) = pre ++ attrRaw :: closeRaw :: rest)
    (hl2 : splitLines (trimChars r2) = pre ++ closeRaw :: rest)
    (hstart : startingErrorNumber f c1 = startingErrorNumber f c2)
    (h1 : isPrefixOfC "#[".data (trimChars attrRaw) = true)
    (h2 : isSuffixOfC ")]".data (trimChars attrRaw) = true)
    (h3 : containsSub emitArrow (extractMsg (trimChars attrRaw)) = false)
    (hclose : startsWithChar rbrace (trimChars closeRaw) = true) :
    convert_to_wtf_error f c1 = convert_to_wtf_error f c2 := by
  have hrun : runLines defaultBuffer (startingErrorNumber f c1) (splitLines (trimChars r1))
      = runLines defaultBuffer (startingErrorNumber f c1) (splitLines (trimChars r2)) := by
    rw [hl1, hl2]
    exact runLines_drop_dangling_attr pre defaultBuffer _ attrRaw closeRaw rest h1 h2 h3 hclose
  unfold convert_to_wtf_error convert_result
  simp only [hnm, hi1, hi2, hr1, hr2, hb1, hb2, eq_self_iff_true, if_true]
  rw [← hstart, hrun]

/-- Claim C9, witness: dropping the dangling `#[error("m")]` before the brace
leaves the full parse of a one-variant source unchanged (both sources select
starting code 0). -/
theorem dangling_attr_dropped_witness :
    convert_to_wtf_error metaTestName "Meta \x7b\nA,\n#[error(\x22m\x22)]\n\x7d".data
      = convert_to_wtf_error metaTestName "Meta \x7b\nA,\n\x7d".data :=
  dangling_attr_dropped metaTestName
    "Meta \x7b\nA,\n#[error(\x22m\x22)]\n\x7d".data "Meta \x7b\nA,\n\x7d".data
    "Meta".data ["A,".data] "#[error(\x22m\x22)]".data "\x7d".data [] 0 0
    "\nA,\n#[error(\x22m\x22)]\n\x7d".data "\nA,\n\x7d".data
    (by decide) (by decide) (by decide) (by decide) (by decide) (by decide) (by decide)
    (by decide) (by decide) (by decide) (by decide) (by decide) (by decide) (by decide)

end Metaboss
